import Mathlib

/-!
Verification development for the Gather Foods chatbot repository.

The repository ships a Next.js voice-assistant frontend (chat route, TTS
route, `VoiceAssistant` component) together with the README of its
`training/` retrieval pipeline (ingestion → chunking → embedding → FAISS
index → query).  The pipeline's Python sources are not part of the tree,
so the pipeline components below are modelled from the specification; the
web-layer definitions are translated from the TypeScript sources.
-/

namespace Pipeline

/-- Modelled from the spec: the `Document` record produced by the Document
Normalizer (`training/ingest/normalize.py`, absent from the tree).  The
chunker never splits mid-sentence, so the document text is carried as its
sentence segmentation (`text` is the concatenation) and heading boundaries
are given as sentence indices paired with the heading title. -/
structure Document where
  id : String
  source_uri : String
  sentences : List String
  headings : List (Nat × String)
  deriving DecidableEq

/-- The full text of a document: the concatenation of its sentences. -/
def Document.text (d : Document) : String :=
  String.join d.sentences

/-- The sentence lengths of a document, in characters. -/
def Document.lens (d : Document) : List Nat :=
  d.sentences.map String.length

/-- Modelled from the spec: the `Chunk` record emitted by the Semantic
Chunker (`training/chunk/chonkie.py`, absent from the tree). -/
structure Chunk where
  id : String
  document_id : String
  text : String
  start_offset : Nat
  end_offset : Nat
  heading_path : List String
  sequence_index : Nat
  deriving DecidableEq

/-- Errors raised by the chunker: invalid chunking parameters. -/
inductive ChunkError
  | configError
  deriving DecidableEq

/-- Sum of the sentence lengths strictly before sentence `i`
(the character offset of sentence `i` in the concatenated text). -/
def prefLen : List Nat → Nat → Nat
  | _, 0 => 0
  | [], _ + 1 => 0
  | L :: ls, i + 1 => L + prefLen ls i

/-- Total length of the sentences in the half-open range `[c, j)`. -/
def spanSum (lens : List Nat) (c j : Nat) : Nat :=
  ((lens.drop c).take (j - c)).sum

/-- Modelled from the spec: window growth of the sliding-window chunker.
Starting from end position `j` with accumulated size `acc`, keep adding the
next sentence while the window stays within `maxSize` and before `stop`. -/
def grow (lens : List Nat) (maxSize stop : Nat) : Nat → Nat → Nat → Nat
  | 0, j, _ => j
  | fuel + 1, j, acc =>
    if j < stop then
      if acc + lens.getD j 0 ≤ maxSize then
        grow lens maxSize stop fuel (j + 1) (acc + lens.getD j 0)
      else j
    else j

/-- Modelled from the spec: the next window starts `overlap` units before
the end of the current one, snapped forward to a sentence boundary — the
smallest start `c` past the previous start whose span up to `j` fits in
`overlap`. -/
def backOff (lens : List Nat) (overlap j : Nat) : Nat → Nat → Nat
  | 0, _ => j
  | fuel + 1, c =>
    if j ≤ c then j
    else if spanSum lens c j ≤ overlap then c
    else backOff lens overlap j fuel (c + 1)

/-- Modelled from the spec: the sliding-window loop of the Semantic
Chunker over sentence indices.  From start index `i`, grow a window (a
single oversized sentence is emitted alone), emit the span, and continue
from the overlap-determined next start until `stop` is reached. -/
def chunkLoop (lens : List Nat) (maxSize overlap stop : Nat) :
    Nat → Nat → List (Nat × Nat)
  | 0, _ => []
  | fuel + 1, i =>
    if i < stop then
      let j := grow lens maxSize stop (stop - (i + 1)) (i + 1) (lens.getD i 0)
      if stop ≤ j then [(i, j)]
      else (i, j) :: chunkLoop lens maxSize overlap stop fuel (backOff lens overlap j j (i + 1))
    else []

/-- Chunk the sentence range `[a, b)` into sentence-index spans. -/
def chunkCore (lens : List Nat) (maxSize overlap a b : Nat) : List (Nat × Nat) :=
  chunkLoop lens maxSize overlap b b a

/-- Modelled from the spec: normalization of heading boundaries — keep a
strictly increasing, in-range subsequence of the declared heading starts. -/
def normStarts (n : Nat) : List Nat → Nat → List Nat
  | [], _ => []
  | s :: rest, lo =>
    if lo < s ∧ s < n then s :: normStarts n rest s else normStarts n rest lo

/-- The heading-delimited sections: consecutive spans between successive
section starts, ending at `n`. -/
def sectionSpans (n : Nat) : List Nat → Nat → List (Nat × Nat)
  | [], lo => if lo < n then [(lo, n)] else []
  | s :: rest, lo => (lo, s) :: sectionSpans n rest s

/-- All chunk spans of a document: each section is chunked by the sliding
window, and the per-section span lists are concatenated in order. -/
def chunkSpans (lens : List Nat) (maxSize overlap n : Nat) (starts : List Nat) :
    List (Nat × Nat) :=
  (sectionSpans n starts 0).flatMap (fun ab => chunkCore lens maxSize overlap ab.1 ab.2)

/-- The heading path recorded on a chunk starting at sentence `a`: the
title of the last heading at or before `a`, if any. -/
def headingPathAt (hs : List (Nat × String)) (a : Nat) : List String :=
  match (hs.filter (fun p => p.1 ≤ a)).getLast? with
  | some p => [p.2]
  | none => []

/-- Materialize the sentence-index span `[a, b)` of a document as a
`Chunk` with sequence index `k`. -/
def mkChunk (d : Document) (a b k : Nat) : Chunk :=
  { id := d.id ++ "#" ++ toString k
    document_id := d.id
    text := String.join ((d.sentences.take b).drop a)
    start_offset := prefLen d.lens a
    end_offset := prefLen d.lens b
    heading_path := headingPathAt d.headings a
    sequence_index := k }

/-- Materialize a list of spans as chunks with consecutive sequence indices. -/
def mkChunks (d : Document) : List (Nat × Nat) → Nat → List Chunk
  | [], _ => []
  | ab :: rest, k => mkChunk d ab.1 ab.2 k :: mkChunks d rest (k + 1)

/-- The section starts used by the chunker: the normalized heading
boundaries when `heading_aware`, none otherwise. -/
def chunkStarts (d : Document) (headingAware : Bool) : List Nat :=
  if headingAware then normStarts d.sentences.length (d.headings.map Prod.fst) 0 else []

/-- Modelled from the spec: `chunk(document, max_size, overlap,
heading_aware)` of the Semantic Chunker (`training/chunk/chonkie.py`,
absent from the tree).  Rejects `overlap < 0` and `overlap ≥ max_size` as
`ConfigError`; otherwise splits at (normalized) heading boundaries when
`heading_aware` and slides a sentence window over each section. -/
def chunk (d : Document) (maxSize overlap : Int) (headingAware : Bool) :
    Except ChunkError (List Chunk) :=
  if overlap < 0 ∨ maxSize ≤ overlap then .error .configError
  else .ok (mkChunks d (chunkSpans d.lens maxSize.toNat overlap.toNat
    d.sentences.length (chunkStarts d headingAware)) 0)

/-- Invariant bundle for a list of sentence-index spans produced by the
chunker over the range `[i, n)`: nonempty, starting at `i`, ending at `n`,
gap-free (each span starts no later than its predecessor ends), with
strictly increasing starts and all spans proper and in range. -/
structure SpanChain (l : List (Nat × Nat)) (i n : Nat) : Prop where
  ne : l ≠ []
  head1 : ∀ p ∈ l.head?, p.1 = i
  last2 : ∀ p ∈ l.getLast?, p.2 = n
  link : l.Chain' (fun x y => y.1 ≤ x.2)
  mono : l.Chain' (fun x y => x.1 < y.1)
  bounds : ∀ p ∈ l, i ≤ p.1 ∧ p.1 < p.2 ∧ p.2 ≤ n

/-- Dot product of two rational vectors (truncated to the shorter one). -/
def dot (v w : List ℚ) : ℚ :=
  (List.zipWith (· * ·) v w).sum

/-- Modelled from the spec: the distance metric of the Vector Index. -/
inductive Metric
  | cosine
  | euclidean
  deriving DecidableEq

/-- Modelled from the spec: an `EmbeddedChunk` — a chunk plus its
fixed-length embedding vector.  Per the spec's normalization convention,
vectors used with the cosine metric are unit-norm. -/
structure EmbeddedChunk where
  chunk : Chunk
  vector : List ℚ
  deriving DecidableEq

/-- Modelled from the spec: error taxonomy of the Vector Index
(`training/index/faiss_store.py`, absent from the tree). -/
inductive IndexError
  | configError
  | dimensionMismatch
  | invalidArgument
  | corruptIndex
  | notReady
  deriving DecidableEq

/-- Modelled from the spec: a `Ready` Vector Index — metric, vector
dimensionality, and the slot list of embedded chunks.  Built once via
`build` or `load` and then read-only. -/
structure VectorIndex where
  metric : Metric
  dim : Nat
  entries : List EmbeddedChunk
  deriving DecidableEq

/-- Modelled from the spec: `build(sequence of EmbeddedChunk, metric)`.
The dimensionality is taken from the first vector and every vector is
validated against it; an empty build has no dimensionality and is
rejected as a configuration error. -/
def build (chunks : List EmbeddedChunk) (metric : Metric) :
    Except IndexError VectorIndex :=
  match chunks with
  | [] => .error .configError
  | c :: _ =>
    if chunks.all (fun e => e.vector.length == c.vector.length) then
      .ok ⟨metric, c.vector.length, chunks⟩
    else .error .dimensionMismatch

/-- Modelled from the spec: similarity score of a query against a stored
vector, larger is better.  Cosine score is the inner product (vectors
follow the unit-norm convention); euclidean uses the negated squared
distance so that best-first ordering is by decreasing score. -/
def score (m : Metric) (q v : List ℚ) : ℚ :=
  match m with
  | .cosine => dot q v
  | .euclidean => -dot (List.zipWith (· - ·) q v) (List.zipWith (· - ·) q v)

/-- A search hit: the stored chunk (with its vector) and its score. -/
structure SearchResult where
  chunk : EmbeddedChunk
  score : ℚ
  deriving DecidableEq

/-- Modelled from the spec: best-first result order — decreasing score,
ties broken by ascending `chunk_id`. -/
def better (a b : SearchResult) : Prop :=
  b.score < a.score ∨ (a.score = b.score ∧ a.chunk.chunk.id ≤ b.chunk.chunk.id)

instance : DecidableRel better := fun a b => by
  unfold better; exact inferInstance

instance : IsTotal SearchResult better := by
  constructor
  intro a b
  rcases lt_trichotomy a.score b.score with h | h | h
  · exact Or.inr (Or.inl h)
  · rcases le_total a.chunk.chunk.id b.chunk.chunk.id with hid | hid
    · exact Or.inl (Or.inr ⟨h, hid⟩)
    · exact Or.inr (Or.inr ⟨h.symm, hid⟩)
  · exact Or.inl (Or.inl h)

instance : IsTrans SearchResult better := by
  constructor
  intro a b c hab hbc
  rcases hab with hab | ⟨hab, hab'⟩ <;> rcases hbc with hbc | ⟨hbc, hbc'⟩
  · exact Or.inl (lt_trans hbc hab)
  · exact Or.inl (hbc ▸ hab)
  · exact Or.inl (hab ▸ hbc)
  · exact Or.inr ⟨hab.trans hbc, le_trans hab' hbc'⟩

/-- Modelled from the spec: `search(query_vector, k)`.  Validates the
query dimensionality (`DimensionMismatchError`) and `k`
(`InvalidArgumentError` for `k ≤ 0`), scores every stored vector, sorts
best-first with ties broken by ascending chunk id, and returns the first
`k` hits. -/
def search (idx : VectorIndex) (q : List ℚ) (k : Int) :
    Except IndexError (List SearchResult) :=
  if q.length ≠ idx.dim then .error .dimensionMismatch
  else if k ≤ 0 then .error .invalidArgument
  else
    .ok (((idx.entries.map (fun e => ⟨e, score idx.metric q e.vector⟩)).insertionSort
      better).take k.toNat)

/-- Modelled from the spec: the persisted index artifact — format version,
metric and dimensionality at build time, the slot-ordered metadata table,
and the serialized vectors. -/
structure IndexArtifact where
  version : Nat
  metric : Metric
  dim : Nat
  metas : List Chunk
  vectors : List (List ℚ)
  deriving DecidableEq

/-- Current on-disk format version of the index artifact. -/
def FORMAT_VERSION : Nat := 1

/-- Modelled from the spec: `save` serializes the index into the artifact:
parallel metadata and vector tables in slot order. -/
def save (idx : VectorIndex) : IndexArtifact :=
  ⟨FORMAT_VERSION, idx.metric, idx.dim, idx.entries.map (·.chunk),
    idx.entries.map (·.vector)⟩

/-- Modelled from the spec: `load` validates the artifact (format version,
table alignment, vector dimensionality) and reconstructs the index;
a corrupt or version-mismatched artifact fails with `CorruptIndexError`. -/
def load (a : IndexArtifact) : Except IndexError VectorIndex :=
  if a.version ≠ FORMAT_VERSION then .error .corruptIndex
  else if a.metas.length ≠ a.vectors.length then .error .corruptIndex
  else if ¬ a.vectors.all (fun v => v.length == a.dim) then .error .corruptIndex
  else .ok ⟨a.metric, a.dim, List.zipWith (fun m v => ⟨m, v⟩) a.metas a.vectors⟩

/-- Errors raised by the Embedder. -/
inductive EmbedError
  | configError
  | embeddingError
  deriving DecidableEq

/-- Split a list into consecutive groups of `b` elements (the internal
batches of the Embedder); `fuel` bounds the recursion. -/
def groupsOf (b : Nat) : Nat → List String → List (List String)
  | 0, _ => []
  | _, [] => []
  | fuel + 1, x :: xs => (x :: xs).take b :: groupsOf b fuel ((x :: xs).drop b)

/-- Modelled from the spec: `embed(batch of chunk texts)` of the Embedder
(`training/embed/embedder.py`, absent from the tree).  The underlying
model is an opaque function text → fixed-length vector; the input is cut
into internal batches of the configured size, each batch is mapped through
the model, and the per-batch results are reassembled in order. -/
def embed (model : String → List ℚ) (batchSize : Nat) (texts : List String) :
    Except EmbedError (List (List ℚ)) :=
  if batchSize = 0 then .error .configError
  else .ok ((groupsOf batchSize texts.length texts).map (List.map model)).flatten

end Pipeline

namespace Web

/-- The JSON body accepted by the chat API route
(`src/app/api/chat/route.ts`); absent fields are `none`. -/
structure ChatBody where
  message : Option String
  session_id : Option String
  deriving DecidableEq

/-- A request forwarded to the Python backend at
`http://localhost:8000/api/chat`. -/
structure BackendCall where
  message : String
  session_id : String
  deriving DecidableEq

/-- The JSON data returned by the backend on success. -/
structure BackendData where
  response : String
  session_id : String
  timestamp : String
  context_used : Bool
  deriving DecidableEq

/-- The response of the chat route: 400 with an error, 200 with backend
data, or 500 on any thrown error. -/
inductive ChatResult
  | badRequest (error : String)
  | ok (data : BackendData)
  | serverError (error : String)
  deriving DecidableEq

/-- HTTP status code of a chat-route response. -/
def ChatResult.status : ChatResult → Nat
  | .badRequest _ => 400
  | .ok _ => 200
  | .serverError _ => 500

/-- The `POST` handler of `src/app/api/chat/route.ts`.  A falsy `message`
(absent or empty string) yields 400 "Message is required" before any
backend request; otherwise the message is forwarded with the session id
defaulted to "nextjs-session", and a failed backend fetch is caught as a
500.  The second component records the backend requests actually made. -/
def chatPOST (backend : BackendCall → Option BackendData) (body : ChatBody) :
    ChatResult × List BackendCall :=
  match body.message with
  | none => (.badRequest "Message is required", [])
  | some m =>
    if m = "" then (.badRequest "Message is required", [])
    else
      let call : BackendCall := ⟨m, body.session_id.getD "nextjs-session"⟩
      match backend call with
      | some d => (.ok d, [call])
      | none => (.serverError "Internal server error", [call])

/-- A configured ElevenLabs voice (`VOICE_OPTIONS` entries in the TTS
route). -/
structure VoiceConfig where
  voice_id : String
  name : String
  description : String
  deriving DecidableEq

/-- The `primary` voice of `VOICE_OPTIONS`. -/
def primaryVoice : VoiceConfig :=
  ⟨"pNInz6obpgDQGcFmaJgB", "Adam", "Professional, warm, and culturally respectful"⟩

/-- The `VOICE_OPTIONS` object of the TTS route, as a lookup from key to
voice configuration; keys other than the seven defined ones are absent. -/
def VOICE_OPTIONS : String → Option VoiceConfig
  | "primary" => some primaryVoice
  | "alternative" =>
    some ⟨"EXAVITQu4vr4xnSDxMaL", "Bella", "Warm, friendly, and approachable"⟩
  | "cultural" =>
    some ⟨"pNInz6obpgDQGcFmaJgB", "Cultural Voice", "Respectful and culturally aware"⟩
  | "professional" =>
    some ⟨"21m00Tcm4TlvDq8ikWAM", "Rachel", "Clear, professional, and articulate"⟩
  | "friendly" =>
    some ⟨"AZnzlk1XvdvUeBnXmlld", "Domi", "Energetic and engaging"⟩
  | "calm" =>
    some ⟨"VR6AewLTigWG4xSOukaG", "Arnold", "Calm, soothing, and trustworthy"⟩
  | "young" =>
    some ⟨"VR6AewLTigWG4xSOukaG", "Josh", "Young, enthusiastic, and modern"⟩
  | _ => none

/-- The JSON body accepted by the TTS route; `voice_type` defaults to
"primary" when absent. -/
structure TtsBody where
  text : Option String
  voice_type : Option String
  deriving DecidableEq

/-- The success payload of the TTS route. -/
structure TtsOk where
  audio : List Nat
  voice : String
  model : String
  deriving DecidableEq

/-- The response of the TTS route. -/
inductive TtsResult
  | badRequest (error : String)
  | serverError (error : String)
  | ok (data : TtsOk)
  deriving DecidableEq

/-- The `POST` handler of the TTS route (`src/unnamed/part_001`).  A falsy
`text` yields 400; a missing API key yields 500; otherwise the voice
configuration is `VOICE_OPTIONS[voice_type]` with fallback to
`VOICE_OPTIONS.primary`, and speech is generated with it.  `generate`
models the ElevenLabs client: voice id and text to audio bytes. -/
def ttsPOST (apiKey : String) (generate : String → String → List Nat)
    (body : TtsBody) : TtsResult :=
  match body.text with
  | none => .badRequest "Text is required"
  | some t =>
    if t = "" then .badRequest "Text is required"
    else if apiKey = "" then .serverError "ElevenLabs API key not configured"
    else
      let vt := body.voice_type.getD "primary"
      let voiceConfig := (VOICE_OPTIONS vt).getD primaryVoice
      .ok ⟨generate voiceConfig.voice_id t, voiceConfig.name, "eleven_multilingual_v2"⟩

/-- Message roles in the `VoiceAssistant` component. -/
inductive Role
  | user
  | assistant
  deriving DecidableEq

/-- A chat message of the `VoiceAssistant` component; `Date` values are
modelled as natural-number ticks. -/
structure Message where
  id : String
  content : String
  role : Role
  timestamp : Nat
  deriving DecidableEq

/-- The welcome text of the initial assistant message. -/
def welcomeText : String :=
  "Welcome to Gather Foods AI! I'm your voice-powered assistant. Ask me about our menu, dietary options, or company heritage. Click the microphone to start speaking!"

/-- The assistant welcome message (id "1"), created at tick `now`. -/
def welcome (now : Nat) : Message :=
  ⟨"1", welcomeText, .assistant, now⟩

/-- The initial `messages` state of `VoiceAssistant`. -/
def initialMessages (now : Nat) : List Message :=
  [welcome now]

/-- `handleUserMessage` of `VoiceAssistant`: content that trims to the
empty string is ignored; otherwise the user message is appended, followed
by the assistant response (`reply = some r`) or, when `onMessage` throws
(`reply = none`), the fixed error message.  `now` models `Date.now()`. -/
def handleUserMessage (content : String) (now : Nat) (reply : Option String)
    (msgs : List Message) : List Message :=
  if content.trim = "" then msgs
  else
    let userMessage : Message := ⟨toString now, content, .user, now⟩
    let assistantMessage : Message :=
      match reply with
      | some r => ⟨toString (now + 1), r, .assistant, now + 1⟩
      | none =>
        ⟨toString (now + 1), "Sorry, I encountered an error. Please try again.",
          .assistant, now + 1⟩
    msgs ++ [userMessage, assistantMessage]

/-- `clearMessages` of `VoiceAssistant`: reset to exactly the welcome
message. -/
def clearMessages (now : Nat) : List Message :=
  [welcome now]

/-- The state-changing interactions of `VoiceAssistant` that touch
`messages`. -/
inductive AssistantOp
  | userMessage (content : String) (now : Nat) (reply : Option String)
  | clear (now : Nat)

/-- Apply one interaction to the message list. -/
def applyOp : AssistantOp → List Message → List Message
  | .userMessage c now reply, msgs => handleUserMessage c now reply msgs
  | .clear now, _ => clearMessages now

/-- Run a sequence of interactions from the initial state. -/
def runOps (t0 : Nat) (ops : List AssistantOp) : List Message :=
  ops.foldl (fun s o => applyOp o s) (initialMessages t0)

end Web

section Theorems

open Pipeline Web

lemma prefLen_nil : ∀ i, prefLen [] i = 0
  | 0 => rfl
  | _ + 1 => rfl

lemma prefLen_zero : ∀ ls : List Nat, prefLen ls 0 = 0
  | [] => rfl
  | _ :: _ => rfl

lemma prefLen_cons_succ (L : Nat) (t : List Nat) (i : Nat) :
    prefLen (L :: t) (i + 1) = L + prefLen t i := rfl

lemma prefLen_mono (ls : List Nat) : ∀ i j : Nat, i ≤ j → prefLen ls i ≤ prefLen ls j := by
  induction ls with
  | nil => intro i j _; rw [prefLen_nil, prefLen_nil]
  | cons L t ih =>
    intro i j hij
    cases i with
    | zero => exact Nat.zero_le _
    | succ i' =>
      cases j with
      | zero => omega
      | succ j' =>
        show L + prefLen t i' ≤ L + prefLen t j'
        exact Nat.add_le_add_left (ih i' j' (by omega)) L

lemma prefLen_sum : ∀ ls : List Nat, prefLen ls ls.length = ls.sum := by
  intro ls
  induction ls with
  | nil => rfl
  | cons L t ih => show L + prefLen t t.length = (L :: t).sum; rw [ih, List.sum_cons]

lemma prefLen_sentence (ls : List Nat) : ∀ p, p < ls.sum →
    ∃ s, s < ls.length ∧ prefLen ls s ≤ p ∧ p < prefLen ls (s + 1) := by
  induction ls with
  | nil => intro p hp; simp at hp
  | cons L t ih =>
    intro p hp
    rw [List.sum_cons] at hp
    by_cases hL : p < L
    · refine ⟨0, by simp, Nat.zero_le _, ?_⟩
      have e : prefLen (L :: t) (0 + 1) = L + prefLen t 0 := prefLen_cons_succ L t 0
      have e0 : prefLen t 0 = 0 := prefLen_zero t
      omega
    · obtain ⟨s, hs, h1, h2⟩ := ih (p - L) (by omega)
      refine ⟨s + 1, by simpa using Nat.succ_lt_succ hs, ?_, ?_⟩
      · have e : prefLen (L :: t) (s + 1) = L + prefLen t s := prefLen_cons_succ L t s
        omega
      · have e : prefLen (L :: t) (s + 1 + 1) = L + prefLen t (s + 1) :=
          prefLen_cons_succ L t (s + 1)
        omega

lemma grow_ge (lens : List Nat) (ms stop : Nat) :
    ∀ fuel j acc, j ≤ grow lens ms stop fuel j acc := by
  intro fuel
  induction fuel with
  | zero => intro j acc; exact Nat.le_refl j
  | succ f ih =>
    intro j acc
    simp only [grow]
    split
    · split
      · exact Nat.le_trans (Nat.le_succ j) (ih (j + 1) _)
      · exact Nat.le_refl j
    · exact Nat.le_refl j

lemma grow_le (lens : List Nat) (ms stop : Nat) :
    ∀ fuel j acc, j ≤ stop → grow lens ms stop fuel j acc ≤ stop := by
  intro fuel
  induction fuel with
  | zero => intro j acc h; exact h
  | succ f ih =>
    intro j acc h
    simp only [grow]
    split
    · split
      · next hlt _ => exact ih (j + 1) _ (by omega)
      · exact h
    · exact h

lemma backOff_le (lens : List Nat) (ov j : Nat) :
    ∀ fuel c, c ≤ j → backOff lens ov j fuel c ≤ j := by
  intro fuel
  induction fuel with
  | zero => intro c _; exact Nat.le_refl j
  | succ f ih =>
    intro c hc
    simp only [backOff]
    split
    · exact Nat.le_refl j
    · split
      · exact hc
      · next hjc _ => exact ih (c + 1) (by omega)

lemma backOff_gt (lens : List Nat) (ov j i : Nat) (hij : i < j) :
    ∀ fuel c, i < c → i < backOff lens ov j fuel c := by
  intro fuel
  induction fuel with
  | zero => intro c _; exact hij
  | succ f ih =>
    intro c hc
    simp only [backOff]
    split
    · exact hij
    · split
      · exact hc
      · exact ih (c + 1) (by omega)

lemma chunkLoop_spec (lens : List Nat) (ms ov stop : Nat) :
    ∀ fuel i, i < stop → stop - i ≤ fuel →
      SpanChain (chunkLoop lens ms ov stop fuel i) i stop := by
  intro fuel
  induction fuel with
  | zero => intro i h1 h2; omega
  | succ f ih =>
    intro i hi hfuel
    have hgge : i + 1 ≤ grow lens ms stop (stop - (i + 1)) (i + 1) (lens.getD i 0) :=
      grow_ge lens ms stop _ _ _
    have hgle : grow lens ms stop (stop - (i + 1)) (i + 1) (lens.getD i 0) ≤ stop :=
      grow_le lens ms stop _ _ _ (by omega)
    simp only [chunkLoop]
    rw [if_pos hi]
    set j := grow lens ms stop (stop - (i + 1)) (i + 1) (lens.getD i 0) with hj
    by_cases hstop : stop ≤ j
    · rw [if_pos hstop]
      have hjs : j = stop := Nat.le_antisymm hgle hstop
      refine ⟨by simp, by simp, by simp [hjs], List.chain'_singleton _,
        List.chain'_singleton _, ?_⟩
      intro p hp
      rw [List.mem_singleton] at hp
      subst hp
      exact ⟨Nat.le_refl i, by omega, by omega⟩
    · rw [if_neg hstop]
      have hjlt : j < stop := by omega
      have hgt : i < backOff lens ov j j (i + 1) :=
        backOff_gt lens ov j i (by omega) j (i + 1) (by omega)
      have hle : backOff lens ov j j (i + 1) ≤ j :=
        backOff_le lens ov j j (i + 1) (by omega)
      obtain ⟨hne, hhd, hlast, hlink, hmono, hbd⟩ :=
        ih (backOff lens ov j j (i + 1)) (by omega) (by omega)
      refine ⟨by simp, by simp, ?_, ?_, ?_, ?_⟩
      · intro p hp
        rcases List.exists_cons_of_ne_nil hne with ⟨x, xs, hx⟩
        rw [hx, List.getLast?_cons_cons] at hp
        rw [hx] at hlast
        exact hlast p hp
      · rw [List.chain'_cons']
        refine ⟨?_, hlink⟩
        intro y hy
        have := hhd y hy
        omega
      · rw [List.chain'_cons']
        refine ⟨?_, hmono⟩
        intro y hy
        have := hhd y hy
        omega
      · intro p hp
        rcases List.mem_cons.mp hp with rfl | hp'
        · exact ⟨Nat.le_refl i, by omega, by omega⟩
        · have := hbd p hp'
          exact ⟨by omega, this.2.1, this.2.2⟩

lemma SpanChain.glue {l₁ l₂ : List (Nat × Nat)} {i m n : Nat}
    (h₁ : SpanChain l₁ i m) (h₂ : SpanChain l₂ m n) : SpanChain (l₁ ++ l₂) i n := by
  obtain ⟨ne1, hd1, lt1, lk1, mo1, bd1⟩ := h₁
  obtain ⟨ne2, hd2, lt2, lk2, mo2, bd2⟩ := h₂
  have him : i < m := by
    rcases List.exists_cons_of_ne_nil ne1 with ⟨x, xs, rfl⟩
    have h1 := hd1 x (by simp)
    have h2 := bd1 x (by simp)
    omega
  have hmn : m < n := by
    rcases List.exists_cons_of_ne_nil ne2 with ⟨x, xs, rfl⟩
    have h1 := hd2 x (by simp)
    have h2 := bd2 x (by simp)
    omega
  refine ⟨?_, ?_, ?_, ?_, ?_, ?_⟩
  · simp [ne1]
  · intro p hp
    rw [List.head?_append_of_ne_nil l₁ ne1] at hp
    exact hd1 p hp
  · intro p hp
    rw [List.getLast?_append_of_ne_nil l₁ ne2] at hp
    exact lt2 p hp
  · refine List.Chain'.append lk1 lk2 ?_
    intro x hx y hy
    have hx2 := lt1 x hx
    have hy1 := hd2 y hy
    omega
  · refine List.Chain'.append mo1 mo2 ?_
    intro x hx y hy
    have hx2 := lt1 x hx
    have hxm := bd1 x (List.mem_of_getLast?_eq_some hx)
    have hy1 := hd2 y hy
    omega
  · intro p hp
    rcases List.mem_append.mp hp with h | h
    · have := bd1 p h
      exact ⟨this.1, this.2.1, by omega⟩
    · have := bd2 p h
      exact ⟨by omega, this.2.1, this.2.2⟩

lemma chain_cover (s : Nat) :
    ∀ l : List (Nat × Nat), l.Chain' (fun x y => y.1 ≤ x.2) →
      (∀ p ∈ l.head?, p.1 ≤ s) → (∀ p ∈ l.getLast?, s < p.2) → l ≠ [] →
      ∃ c ∈ l, c.1 ≤ s ∧ s < c.2 := by
  intro l
  induction l with
  | nil => intro _ _ _ h; exact absurd rfl h
  | cons a t ih =>
    intro hchain hhead hlast _
    cases t with
    | nil =>
      exact ⟨a, by simp, hhead a (by simp), by simpa using hlast a (by simp)⟩
    | cons b t' =>
      by_cases hs : s < a.2
      · exact ⟨a, by simp, hhead a (by simp), hs⟩
      · have hab : b.1 ≤ a.2 := (List.chain'_cons.mp hchain).1
        obtain ⟨c, hc, h1, h2⟩ := ih (List.chain'_cons.mp hchain).2
          (by intro p hp; simp at hp; subst hp; omega)
          (by intro p hp; rw [List.getLast?_cons_cons] at hlast; exact hlast p hp)
          (by simp)
        exact ⟨c, by simp [hc], h1, h2⟩

lemma normStarts_spec (n : Nat) :
    ∀ (hs : List Nat) (lo : Nat),
      List.Chain' (· < ·) (lo :: normStarts n hs lo) ∧
        ∀ s ∈ normStarts n hs lo, s < n := by
  intro hs
  induction hs with
  | nil =>
    intro lo
    exact ⟨List.chain'_singleton lo, by simp [normStarts]⟩
  | cons a rest ih =>
    intro lo
    simp only [normStarts]
    by_cases h : lo < a ∧ a < n
    · rw [if_pos h]
      obtain ⟨hc, hm⟩ := ih a
      refine ⟨List.chain'_cons.mpr ⟨h.1, hc⟩, ?_⟩
      intro s hs'
      rcases List.mem_cons.mp hs' with rfl | hs''
      · exact h.2
      · exact hm s hs''
    · rw [if_neg h]
      exact ih lo

lemma chunkStarts_spec (d : Document) (ha : Bool) :
    List.Chain' (· < ·) (0 :: chunkStarts d ha) ∧
      ∀ s ∈ chunkStarts d ha, s < d.sentences.length := by
  cases ha with
  | false => exact ⟨List.chain'_singleton 0, by simp [chunkStarts]⟩
  | true => exact normStarts_spec d.sentences.length (d.headings.map Prod.fst) 0

lemma sectionSpans_flatMap_spec (lens : List Nat) (ms ov n : Nat) :
    ∀ (starts : List Nat) (lo : Nat), lo < n →
      List.Chain' (· < ·) (lo :: starts) → (∀ s ∈ starts, s < n) →
      SpanChain ((sectionSpans n starts lo).flatMap
        (fun ab => chunkCore lens ms ov ab.1 ab.2)) lo n := by
  intro starts
  induction starts with
  | nil =>
    intro lo hlo _ _
    simp only [sectionSpans]
    rw [if_pos hlo]
    simp only [List.flatMap_cons, List.flatMap_nil, List.append_nil]
    exact chunkLoop_spec lens ms ov n n lo hlo (by omega)
  | cons s rest ih =>
    intro lo hlo hchain hmem
    have hlos : lo < s := (List.chain'_cons.mp hchain).1
    have hsn : s < n := hmem s (by simp)
    simp only [sectionSpans, List.flatMap_cons]
    exact SpanChain.glue (chunkLoop_spec lens ms ov s s lo hlos (by omega))
      (ih s hsn (List.chain'_cons.mp hchain).2 (fun x hx => hmem x (by simp [hx])))

lemma chunkSpans_spec (lens : List Nat) (ms ov n : Nat) (starts : List Nat)
    (hn : 0 < n) (hchain : List.Chain' (· < ·) (0 :: starts))
    (hmem : ∀ s ∈ starts, s < n) :
    SpanChain (chunkSpans lens ms ov n starts) 0 n :=
  sectionSpans_flatMap_spec lens ms ov n starts 0 hn hchain hmem

lemma mkChunks_head (d : Document) :
    ∀ (spans : List (Nat × Nat)) (k : Nat) (c : Chunk),
      c ∈ (mkChunks d spans k).head? →
      ∃ ab ∈ spans.head?, c = mkChunk d ab.1 ab.2 k := by
  intro spans k c hc
  cases spans with
  | nil => simp [mkChunks] at hc
  | cons ab rest =>
    simp only [mkChunks, List.head?_cons, Option.mem_def, Option.some.injEq] at hc
    exact ⟨ab, by simp, hc.symm⟩

lemma mkChunks_chain (d : Document) (R : Chunk → Chunk → Prop)
    (S : Nat × Nat → Nat × Nat → Prop)
    (H : ∀ a b ka kb, S a b → ka < kb → R (mkChunk d a.1 a.2 ka) (mkChunk d b.1 b.2 kb)) :
    ∀ (spans : List (Nat × Nat)) (k : Nat), List.Chain' S spans →
      List.Chain' R (mkChunks d spans k) := by
  intro spans
  induction spans with
  | nil => intro k _; simp [mkChunks]
  | cons ab rest ih =>
    intro k hS
    simp only [mkChunks]
    rw [List.chain'_cons']
    refine ⟨?_, ih (k + 1) (List.Chain'.tail hS)⟩
    intro y hy
    obtain ⟨cd, hcd, rfl⟩ := mkChunks_head d rest (k + 1) y hy
    cases rest with
    | nil => simp at hcd
    | cons cd' rest' =>
      simp only [List.head?_cons, Option.mem_def, Option.some.injEq] at hcd
      subst hcd
      exact H ab cd' k (k + 1) (List.chain'_cons.mp hS).1 (by omega)

lemma mkChunks_mem (d : Document) :
    ∀ (spans : List (Nat × Nat)) (k : Nat) (ab : Nat × Nat), ab ∈ spans →
      ∃ c ∈ mkChunks d spans k, c.start_offset = prefLen d.lens ab.1 ∧
        c.end_offset = prefLen d.lens ab.2 := by
  intro spans
  induction spans with
  | nil => intro k ab h; simp at h
  | cons xy rest ih =>
    intro k ab h
    rcases List.mem_cons.mp h with rfl | h'
    · exact ⟨mkChunk d ab.1 ab.2 k, by simp [mkChunks], rfl, rfl⟩
    · obtain ⟨c, hc, h1, h2⟩ := ih (k + 1) ab h'
      exact ⟨c, by simp [mkChunks, hc], h1, h2⟩

lemma length_foldl_append :
    ∀ (l : List String) (s : String),
      (l.foldl (fun r t => r ++ t) s).length = s.length + (l.map String.length).sum := by
  intro l
  induction l with
  | nil => intro s; simp
  | cons x xs ih =>
    intro s
    simp only [List.foldl_cons, List.map_cons, List.sum_cons]
    rw [ih (s ++ x)]
    simp [String.length_append]
    omega

lemma text_length (d : Document) : d.text.length = d.lens.sum := by
  show (String.join d.sentences).length = d.lens.sum
  unfold String.join Document.lens
  rw [length_foldl_append]
  simp

lemma chunkSpans_mono (d : Document) (ms ov : Nat) (ha : Bool)
    (hchain : List.Chain' (· < ·) (0 :: chunkStarts d ha))
    (hmem : ∀ s ∈ chunkStarts d ha, s < d.sentences.length) :
    List.Chain' (fun x y => x.1 < y.1)
      (chunkSpans d.lens ms ov d.sentences.length (chunkStarts d ha)) := by
  by_cases hn : d.sentences.length = 0
  · have hstarts : chunkStarts d ha = [] := by
      apply List.eq_nil_iff_forall_not_mem.mpr
      intro s hs
      have := hmem s hs
      omega
    rw [hstarts, hn]
    simp [chunkSpans, sectionSpans]
  · exact (chunkSpans_spec d.lens ms ov d.sentences.length (chunkStarts d ha)
      (Nat.pos_of_ne_zero hn) hchain hmem).mono

/-- C2: for every document and valid chunking configuration, the chunks
returned by `chunk` have strictly increasing `sequence_index` in list
order, monotonically non-decreasing `start_offset` in that order, and
their offset spans cover the document's full text with no gaps. -/
theorem chunk_coverage (d : Pipeline.Document) (maxSize overlap : Int) (ha : Bool)
    (h0 : 0 ≤ overlap) (h1 : overlap < maxSize) :
    ∃ cs, Pipeline.chunk d maxSize overlap ha = .ok cs ∧
      cs.Chain' (fun c c' => c.sequence_index < c'.sequence_index) ∧
      cs.Chain' (fun c c' => c.start_offset ≤ c'.start_offset) ∧
      ∀ p < d.text.length, ∃ c ∈ cs, c.start_offset ≤ p ∧ p < c.end_offset := by
  have hguard : ¬(overlap < 0 ∨ maxSize ≤ overlap) := by omega
  obtain ⟨hchain, hmem⟩ := chunkStarts_spec d ha
  refine ⟨_, by unfold Pipeline.chunk; rw [if_neg hguard], ?_, ?_, ?_⟩
  · exact mkChunks_chain d _ (fun x y => x.1 < y.1)
      (fun a b ka kb _ hk => hk)
      (chunkSpans d.lens maxSize.toNat overlap.toNat d.sentences.length
        (chunkStarts d ha)) 0 (chunkSpans_mono d maxSize.toNat overlap.toNat ha hchain hmem)
  · exact mkChunks_chain d _ (fun x y => x.1 < y.1)
      (fun a b ka kb hS _ => prefLen_mono d.lens a.1 b.1 (by omega))
      (chunkSpans d.lens maxSize.toNat overlap.toNat d.sentences.length
        (chunkStarts d ha)) 0 (chunkSpans_mono d maxSize.toNat overlap.toNat ha hchain hmem)
  · intro p hp
    rw [text_length] at hp
    by_cases hn : d.sentences.length = 0
    · exfalso
      have hsent : d.sentences = [] := List.length_eq_zero.mp hn
      have : d.lens = [] := by unfold Pipeline.Document.lens; rw [hsent]; rfl
      rw [this] at hp
      simp at hp
    · have hSC := chunkSpans_spec d.lens maxSize.toNat overlap.toNat
        d.sentences.length (chunkStarts d ha) (Nat.pos_of_ne_zero hn) hchain hmem
      obtain ⟨s, hs, hp1, hp2⟩ := prefLen_sentence d.lens p hp
      have hsn : s < d.sentences.length := by
        have : d.lens.length = d.sentences.length := List.length_map _ _
        omega
      obtain ⟨ab, hab, ha1, ha2⟩ := chain_cover s _ hSC.link
        (by intro q hq; have := hSC.head1 q hq; omega)
        (by intro q hq; have := hSC.last2 q hq; omega)
        hSC.ne
      obtain ⟨c, hc, e1, e2⟩ := mkChunks_mem d _ 0 ab hab
      refine ⟨c, hc, ?_, ?_⟩
      · rw [e1]
        exact Nat.le_trans (prefLen_mono d.lens ab.1 s ha1) hp1
      · rw [e2]
        exact Nat.lt_of_lt_of_le hp2 (prefLen_mono d.lens (s + 1) ab.2 (by omega))

/-- Witness for C2 at a concrete document and configuration. -/
theorem chunk_coverage_witness :
    ((0 : Int) ≤ 3 ∧ (3 : Int) < 25) ∧
      (∃ cs, Pipeline.chunk
          ⟨"menu", "data/raw/source.pdf",
            ["Wattleseed Damper, vegetarian, $4.00.", "Another menu item."],
            [(0, "Menu")]⟩ 25 3 true = .ok cs ∧
        cs.Chain' (fun c c' => c.sequence_index < c'.sequence_index) ∧
        cs.Chain' (fun c c' => c.start_offset ≤ c'.start_offset) ∧
        ∀ p < (Pipeline.Document.text
          ⟨"menu", "data/raw/source.pdf",
            ["Wattleseed Damper, vegetarian, $4.00.", "Another menu item."],
            [(0, "Menu")]⟩).length,
          ∃ c ∈ cs, c.start_offset ≤ p ∧ p < c.end_offset) :=
  ⟨⟨by decide, by decide⟩,
    chunk_coverage
      ⟨"menu", "data/raw/source.pdf",
        ["Wattleseed Damper, vegetarian, $4.00.", "Another menu item."],
        [(0, "Menu")]⟩ 25 3 true (by decide) (by decide)⟩

/-- C4: for every document and configuration with `overlap < 0` or
`overlap ≥ max_size`, `chunk` fails with `ConfigError` and no chunk
sequence is produced. -/
theorem chunk_rejects_bad_overlap (d : Pipeline.Document) (maxSize overlap : Int)
    (headingAware : Bool) (h : overlap < 0 ∨ maxSize ≤ overlap) :
    Pipeline.chunk d maxSize overlap headingAware = .error .configError := by
  unfold Pipeline.chunk
  rw [if_pos h]

/-- Witness for C4: a concrete document with `overlap = 7 ≥ max_size = 5`
is rejected with `ConfigError`. -/
theorem chunk_rejects_bad_overlap_witness :
    ((7 : Int) < 0 ∨ (5 : Int) ≤ 7) ∧
      Pipeline.chunk ⟨"doc1", "file.pdf", ["One sentence.", "Two."], []⟩ 5 7 true
        = .error .configError :=
  ⟨by decide,
    chunk_rejects_bad_overlap ⟨"doc1", "file.pdf", ["One sentence.", "Two."], []⟩ 5 7 true
      (by decide)⟩

lemma dot_nil (w : List ℚ) : dot [] w = 0 := rfl

lemma dot_nil_right : ∀ v : List ℚ, dot v [] = 0
  | [] => rfl
  | _ :: _ => rfl

lemma dot_cons (a b : ℚ) (v w : List ℚ) : dot (a :: v) (b :: w) = a * b + dot v w := by
  show (List.zipWith (· * ·) (a :: v) (b :: w)).sum = _
  rw [List.zipWith_cons_cons, List.sum_cons]
  rfl

lemma dot_self_nonneg : ∀ v : List ℚ, 0 ≤ dot v v := by
  intro v
  induction v with
  | nil => exact le_refl 0
  | cons a t ih =>
    rw [dot_cons]
    exact add_nonneg (mul_self_nonneg a) ih

lemma dot_sq_le : ∀ v w : List ℚ, dot v w ^ 2 ≤ dot v v * dot w w := by
  intro v
  induction v with
  | nil => intro w; rw [dot_nil, dot_nil]; simp
  | cons a v' ih =>
    intro w
    cases w with
    | nil => rw [dot_nil_right, dot_nil_right]; simp
    | cons b w' =>
      rw [dot_cons a b v' w', dot_cons a a v' v', dot_cons b b w' w']
      have hIH := ih w'
      have hp := dot_self_nonneg v'
      have hq := dot_self_nonneg w'
      rcases eq_or_lt_of_le hq with hq0 | hq0
      · have hd2 : dot v' w' ^ 2 ≤ 0 := by rw [← hq0, mul_zero] at hIH; exact hIH
        have hd : dot v' w' = 0 := by nlinarith [sq_nonneg (dot v' w')]
        rw [hd, ← hq0]
        nlinarith [mul_nonneg hp (mul_self_nonneg b)]
      · nlinarith [sq_nonneg (a * dot w' w' - b * dot v' w'),
          mul_nonneg (add_nonneg (mul_self_nonneg b) (le_of_lt hq0))
            (sub_nonneg.mpr hIH), hq0]

lemma score_bounds (q v : List ℚ) (hq : dot q q = 1) (hv : dot v v = 1) :
    -1 ≤ dot q v ∧ dot q v ≤ 1 := by
  have h := dot_sq_le q v
  rw [hq, hv] at h
  constructor <;> nlinarith [h]

lemma dot_sub_identity : ∀ v w : List ℚ, v.length = w.length →
    dot (List.zipWith (· - ·) v w) (List.zipWith (· - ·) v w) =
      dot v v - 2 * dot v w + dot w w := by
  intro v
  induction v with
  | nil =>
    intro w h
    have hw : w = [] := List.length_eq_zero.mp (by simpa using h.symm)
    subst hw
    simp [dot_nil]
  | cons a v' ih =>
    intro w h
    cases w with
    | nil => simp at h
    | cons b w' =>
      simp only [List.zipWith_cons_cons]
      rw [dot_cons, dot_cons a a v' v', dot_cons a b v' w', dot_cons b b w' w']
      rw [ih w' (by simpa using h)]
      ring

lemma eq_of_sub_dot_zero : ∀ v w : List ℚ, v.length = w.length →
    dot (List.zipWith (· - ·) v w) (List.zipWith (· - ·) v w) = 0 → v = w := by
  intro v
  induction v with
  | nil =>
    intro w h _
    exact (List.length_eq_zero.mp (by simpa using h.symm)).symm
  | cons a v' ih =>
    intro w h hz
    cases w with
    | nil => simp at h
    | cons b w' =>
      simp only [List.zipWith_cons_cons] at hz
      rw [dot_cons] at hz
      have h1 : 0 ≤ (a - b) * (a - b) := mul_self_nonneg _
      have h2 : 0 ≤ dot (List.zipWith (· - ·) v' w') (List.zipWith (· - ·) v' w') :=
        dot_self_nonneg _
      have hab : a = b := by
        have : (a - b) * (a - b) = 0 := by linarith
        have := mul_self_eq_zero.mp this
        linarith
      rw [hab, ih w' (by simpa using h) (by linarith)]

lemma eq_of_dot_eq_one (v w : List ℚ) (h : v.length = w.length)
    (hv : dot v v = 1) (hw : dot w w = 1) (hvw : dot v w = 1) : v = w := by
  apply eq_of_sub_dot_zero v w h
  rw [dot_sub_identity v w h, hv, hw, hvw]
  norm_num

lemma build_ok (cs : List Pipeline.EmbeddedChunk) (m : Pipeline.Metric)
    (idx : Pipeline.VectorIndex) (h : Pipeline.build cs m = .ok idx) :
    idx.metric = m ∧ idx.entries = cs ∧ cs ≠ [] ∧
      ∀ e ∈ cs, e.vector.length = idx.dim := by
  cases cs with
  | nil => exact absurd h (by simp [Pipeline.build])
  | cons c rest =>
    rw [Pipeline.build] at h
    split at h
    · next hall =>
      simp only [Except.ok.injEq] at h
      subst h
      refine ⟨rfl, rfl, by simp, ?_⟩
      intro e he
      have := List.all_eq_true.mp hall e he
      simpa using this
    · exact absurd h (by simp)

lemma zip_unzip_entries : ∀ l : List Pipeline.EmbeddedChunk,
    List.zipWith (fun m v => Pipeline.EmbeddedChunk.mk m v)
      (l.map (·.chunk)) (l.map (·.vector)) = l := by
  intro l
  induction l with
  | nil => rfl
  | cons e t ih => simp [ih]

/-- C1: for every index built from at least one embedded chunk, loading
the saved artifact yields an index observationally equivalent to the
original: every `search` call returns identical results. -/
theorem index_save_load_roundtrip (cs : List Pipeline.EmbeddedChunk)
    (m : Pipeline.Metric) (idx : Pipeline.VectorIndex)
    (hbuild : Pipeline.build cs m = .ok idx) :
    ∃ idx', Pipeline.load (Pipeline.save idx) = .ok idx' ∧
      ∀ (q : List ℚ) (k : Int), Pipeline.search idx' q k = Pipeline.search idx q k := by
  obtain ⟨hm, he, hne, hdim⟩ := build_ok cs m idx hbuild
  refine ⟨idx, ?_, fun q k => rfl⟩
  unfold Pipeline.load
  rw [if_neg (by simp [Pipeline.save])]
  rw [if_neg (by simp [Pipeline.save])]
  rw [if_neg ?_]
  · rw [Except.ok.injEq]
    show Pipeline.VectorIndex.mk idx.metric idx.dim
        (List.zipWith _ (idx.entries.map (·.chunk)) (idx.entries.map (·.vector))) = idx
    rw [zip_unzip_entries]
  · simp only [Pipeline.save, not_not]
    rw [List.all_eq_true]
    intro v hv
    obtain ⟨e, hecs, rfl⟩ := List.mem_map.mp hv
    simpa using hdim e (he ▸ hecs)

/-- Witness for C1: round-trip at a concrete one-chunk cosine index. -/
theorem index_save_load_roundtrip_witness :
    Pipeline.build [⟨⟨"c1", "d1", "text", 0, 4, [], 0⟩, [1, 0]⟩] .cosine
        = .ok ⟨.cosine, 2, [⟨⟨"c1", "d1", "text", 0, 4, [], 0⟩, [1, 0]⟩]⟩ ∧
      ∃ idx', Pipeline.load (Pipeline.save
          ⟨.cosine, 2, [⟨⟨"c1", "d1", "text", 0, 4, [], 0⟩, [1, 0]⟩]⟩) = .ok idx' ∧
        ∀ (q : List ℚ) (k : Int),
          Pipeline.search idx' q k =
            Pipeline.search ⟨.cosine, 2, [⟨⟨"c1", "d1", "text", 0, 4, [], 0⟩, [1, 0]⟩]⟩ q k :=
  ⟨by rfl,
    index_save_load_roundtrip [⟨⟨"c1", "d1", "text", 0, 4, [], 0⟩, [1, 0]⟩] .cosine
      ⟨.cosine, 2, [⟨⟨"c1", "d1", "text", 0, 4, [], 0⟩, [1, 0]⟩]⟩ (by rfl)⟩

/-- C6: searching with a query vector whose length differs from the index
dimensionality always fails with `DimensionMismatchError`, for every `k`,
and never returns a result sequence. -/
theorem search_dimension_mismatch (idx : Pipeline.VectorIndex) (q : List ℚ)
    (k : Int) (h : q.length ≠ idx.dim) :
    Pipeline.search idx q k = .error .dimensionMismatch := by
  unfold Pipeline.search
  rw [if_pos h]

/-- Witness for C6: a 1-dimensional query against a 2-dimensional index
fails with `DimensionMismatchError`. -/
theorem search_dimension_mismatch_witness :
    (([(1 : ℚ)] : List ℚ).length ≠
        (Pipeline.VectorIndex.mk .cosine 2 [⟨⟨"c1", "d1", "t", 0, 1, [], 0⟩, [1, 0]⟩]).dim) ∧
      Pipeline.search ⟨.cosine, 2, [⟨⟨"c1", "d1", "t", 0, 1, [], 0⟩, [1, 0]⟩]⟩ [(1 : ℚ)] 1
        = .error .dimensionMismatch :=
  ⟨by decide,
    search_dimension_mismatch ⟨.cosine, 2, [⟨⟨"c1", "d1", "t", 0, 1, [], 0⟩, [1, 0]⟩]⟩
      [(1 : ℚ)] 1 (by decide)⟩

/-- C5: with a well-dimensioned query, `search` with `k ≤ 0` fails with
`InvalidArgumentError`, and `search` with `k` larger than the number of
indexed vectors returns exactly all of them rather than failing. -/
theorem search_k_handling (idx : Pipeline.VectorIndex) (q : List ℚ) (k : Int)
    (hq : q.length = idx.dim) :
    (k ≤ 0 → Pipeline.search idx q k = .error .invalidArgument) ∧
      ((idx.entries.length : Int) < k →
        ∃ res, Pipeline.search idx q k = .ok res ∧
          res.length = idx.entries.length) := by
  constructor
  · intro hk
    unfold Pipeline.search
    rw [if_neg (by simp [hq]), if_pos hk]
  · intro hk
    have hk0 : ¬ k ≤ 0 := by omega
    refine ⟨_, by unfold Pipeline.search; rw [if_neg (by simp [hq]), if_neg hk0], ?_⟩
    rw [List.length_take, List.length_insertionSort, List.length_map]
    omega

/-- Witness for C5: `k = 100` against a 3-chunk index returns exactly 3
results, and `k = 0` is rejected. -/
theorem search_k_handling_witness :
    (([(1 : ℚ), 0] : List ℚ).length =
        (Pipeline.VectorIndex.mk .cosine 2
          [⟨⟨"a", "d", "t", 0, 1, [], 0⟩, [1, 0]⟩,
           ⟨⟨"b", "d", "t", 1, 2, [], 1⟩, [0, 1]⟩,
           ⟨⟨"c", "d", "t", 2, 3, [], 2⟩, [1, 0]⟩]).dim) ∧
      (((Pipeline.VectorIndex.mk .cosine 2
          [⟨⟨"a", "d", "t", 0, 1, [], 0⟩, [1, 0]⟩,
           ⟨⟨"b", "d", "t", 1, 2, [], 1⟩, [0, 1]⟩,
           ⟨⟨"c", "d", "t", 2, 3, [], 2⟩, [1, 0]⟩]).entries.length : Int) < 100 →
        ∃ res, Pipeline.search
            ⟨.cosine, 2,
              [⟨⟨"a", "d", "t", 0, 1, [], 0⟩, [1, 0]⟩,
               ⟨⟨"b", "d", "t", 1, 2, [], 1⟩, [0, 1]⟩,
               ⟨⟨"c", "d", "t", 2, 3, [], 2⟩, [1, 0]⟩]⟩ [(1 : ℚ), 0] 100 = .ok res ∧
          res.length =
            (Pipeline.VectorIndex.mk .cosine 2
              [⟨⟨"a", "d", "t", 0, 1, [], 0⟩, [1, 0]⟩,
               ⟨⟨"b", "d", "t", 1, 2, [], 1⟩, [0, 1]⟩,
               ⟨⟨"c", "d", "t", 2, 3, [], 2⟩, [1, 0]⟩]).entries.length) :=
  ⟨by decide,
    (search_k_handling
      ⟨.cosine, 2,
        [⟨⟨"a", "d", "t", 0, 1, [], 0⟩, [1, 0]⟩,
         ⟨⟨"b", "d", "t", 1, 2, [], 1⟩, [0, 1]⟩,
         ⟨⟨"c", "d", "t", 2, 3, [], 2⟩, [1, 0]⟩]⟩ [(1 : ℚ), 0] 100 (by decide)).2⟩

lemma head?_take {α : Type} : ∀ (l : List α) (m : Nat), 0 < m →
    (l.take m).head? = l.head? := by
  intro l m hm
  cases l with
  | nil => simp
  | cons a t =>
    cases m with
    | zero => omega
    | succ m' => rfl

/-- C3: for every `Ready` cosine index (unit-norm vectors, per the
embedding convention) and valid `search(query_vector, k)` call, the
result has length at most `k` and is sorted best-first with ties broken
by ascending chunk id, every score lies in `[-1, 1]`, and a query equal
to an indexed vector yields that vector as the top result with score 1. -/
theorem search_cosine_spec (cs : List Pipeline.EmbeddedChunk)
    (idx : Pipeline.VectorIndex) (q : List ℚ) (k : Int)
    (hbuild : Pipeline.build cs .cosine = .ok idx)
    (hunit : ∀ e ∈ cs, Pipeline.dot e.vector e.vector = 1)
    (hqdim : q.length = idx.dim) (hqunit : Pipeline.dot q q = 1) (hk : 0 < k) :
    ∃ res, Pipeline.search idx q k = .ok res ∧
      (res.length : Int) ≤ k ∧
      List.Sorted Pipeline.better res ∧
      (∀ r ∈ res, -1 ≤ r.score ∧ r.score ≤ 1) ∧
      (∀ e ∈ cs, e.vector = q →
        ∃ hd, res.head? = some hd ∧ hd.score = 1 ∧ hd.chunk.vector = q) := by
  obtain ⟨hm, he, hne, hdim⟩ := build_ok cs .cosine idx hbuild
  have hsearch : Pipeline.search idx q k =
      .ok (((idx.entries.map
        (fun e => ⟨e, Pipeline.score idx.metric q e.vector⟩)).insertionSort
          Pipeline.better).take k.toNat) := by
    unfold Pipeline.search
    rw [if_neg (by simp [hqdim]), if_neg (by omega)]
  have hscore_cos : ∀ e : Pipeline.EmbeddedChunk,
      Pipeline.score idx.metric q e.vector = Pipeline.dot q e.vector := by
    intro e
    rw [hm]
    rfl
  have hub : ∀ r ∈ (idx.entries.map
      (fun e => (⟨e, Pipeline.score idx.metric q e.vector⟩ : Pipeline.SearchResult))),
      (-1 ≤ r.score ∧ r.score ≤ 1) ∧ ∃ e ∈ cs, r.chunk = e ∧
        r.score = Pipeline.dot q e.vector := by
    intro r hr
    obtain ⟨e, hecs, rfl⟩ := List.mem_map.mp hr
    have hecs' : e ∈ cs := he ▸ hecs
    refine ⟨?_, e, hecs', rfl, hscore_cos e⟩
    show -1 ≤ Pipeline.score idx.metric q e.vector ∧
      Pipeline.score idx.metric q e.vector ≤ 1
    rw [hscore_cos e]
    exact score_bounds q e.vector hqunit (hunit e hecs')
  refine ⟨_, hsearch, ?_, ?_, ?_, ?_⟩
  · rw [List.length_take]
    omega
  · exact List.Pairwise.sublist (List.take_sublist _ _)
      (List.sorted_insertionSort Pipeline.better _)
  · intro r hr
    have hr' : r ∈ (idx.entries.map
        (fun e => (⟨e, Pipeline.score idx.metric q e.vector⟩ : Pipeline.SearchResult))) := by
      have hmem := List.mem_of_mem_take hr
      exact (List.mem_insertionSort Pipeline.better).mp hmem
    exact (hub r hr').1
  · intro e hecs hev
    have hslen : ((idx.entries.map
        (fun e => (⟨e, Pipeline.score idx.metric q e.vector⟩ : Pipeline.SearchResult))).insertionSort
          Pipeline.better).length = cs.length := by
      rw [List.length_insertionSort, List.length_map, he]
    have hsor_ne : ((idx.entries.map
        (fun e => (⟨e, Pipeline.score idx.metric q e.vector⟩ : Pipeline.SearchResult))).insertionSort
          Pipeline.better) ≠ [] := by
      intro hemp
      rw [hemp] at hslen
      have := List.length_pos.mpr hne
      simp at hslen
      omega
    obtain ⟨hd, tl, hsort_eq⟩ := List.exists_cons_of_ne_nil hsor_ne
    have hhead : ((((idx.entries.map
        (fun e => (⟨e, Pipeline.score idx.metric q e.vector⟩ : Pipeline.SearchResult))).insertionSort
          Pipeline.better)).take k.toNat).head? = some hd := by
      rw [head?_take _ _ (by omega : 0 < k.toNat), hsort_eq]
      rfl
    have hmemq : (⟨e, Pipeline.score idx.metric q e.vector⟩ : Pipeline.SearchResult)
        ∈ ((idx.entries.map
          (fun e => (⟨e, Pipeline.score idx.metric q e.vector⟩ : Pipeline.SearchResult))).insertionSort
            Pipeline.better) := by
      rw [List.mem_insertionSort]
      exact List.mem_map.mpr ⟨e, he ▸ hecs, rfl⟩
    have hescore : Pipeline.score idx.metric q e.vector = 1 := by
      rw [hscore_cos e, hev]
      exact hqunit
    have hsorted_s := List.sorted_insertionSort Pipeline.better
      (idx.entries.map
        (fun e => (⟨e, Pipeline.score idx.metric q e.vector⟩ : Pipeline.SearchResult)))
    rw [hsort_eq] at hsorted_s hmemq
    have hd_mem : hd ∈ (idx.entries.map
        (fun e => (⟨e, Pipeline.score idx.metric q e.vector⟩ : Pipeline.SearchResult))) := by
      have : hd ∈ ((idx.entries.map
          (fun e => (⟨e, Pipeline.score idx.metric q e.vector⟩ : Pipeline.SearchResult))).insertionSort
            Pipeline.better) := by
        rw [hsort_eq]
        exact List.mem_cons_self hd tl
      exact (List.mem_insertionSort Pipeline.better).mp this
    have h1 : hd.score ≤ 1 := ((hub hd hd_mem).1).2
    have h2 : (1 : ℚ) ≤ hd.score := by
      rcases List.mem_cons.mp hmemq with heq | htl
      · rw [← heq]
        simp [hescore]
      · have hb := (List.pairwise_cons.mp hsorted_s).1 _ htl
        rcases hb with hlt | ⟨heq, _⟩
        · simp only [hescore] at hlt
          exact le_of_lt hlt
        · simp only [hescore] at heq
          exact le_of_eq heq.symm
    have hdscore : hd.score = 1 := le_antisymm h1 h2
    obtain ⟨_, e', he', hche, hsce⟩ := hub hd hd_mem
    have hvec : e'.vector = q := by
      have hdot1 : Pipeline.dot q e'.vector = 1 := by rw [← hsce, hdscore]
      have hlen : q.length = e'.vector.length := by
        rw [hqdim, hdim e' he']
      exact (eq_of_dot_eq_one q e'.vector hlen hqunit (hunit e' he') hdot1).symm
    exact ⟨hd, hhead, hdscore, by rw [hche, hvec]⟩

/-- Witness for C3 at a concrete two-vector cosine index with the query
equal to the first indexed vector. -/
theorem search_cosine_spec_witness :
    (Pipeline.build
        [⟨⟨"a", "d", "t", 0, 1, [], 0⟩, [1, 0]⟩, ⟨⟨"b", "d", "t", 1, 2, [], 1⟩, [0, 1]⟩]
        .cosine =
        .ok ⟨.cosine, 2,
          [⟨⟨"a", "d", "t", 0, 1, [], 0⟩, [1, 0]⟩, ⟨⟨"b", "d", "t", 1, 2, [], 1⟩, [0, 1]⟩]⟩ ∧
      Pipeline.dot [(1 : ℚ), 0] [(1 : ℚ), 0] = 1 ∧ (0 : Int) < 2) ∧
      (∃ res, Pipeline.search
          ⟨.cosine, 2,
            [⟨⟨"a", "d", "t", 0, 1, [], 0⟩, [1, 0]⟩, ⟨⟨"b", "d", "t", 1, 2, [], 1⟩, [0, 1]⟩]⟩
          [(1 : ℚ), 0] 2 = .ok res ∧
        (res.length : Int) ≤ 2 ∧
        List.Sorted Pipeline.better res ∧
        (∀ r ∈ res, -1 ≤ r.score ∧ r.score ≤ 1) ∧
        (∀ e ∈ [(⟨⟨"a", "d", "t", 0, 1, [], 0⟩, [1, 0]⟩ : Pipeline.EmbeddedChunk),
            ⟨⟨"b", "d", "t", 1, 2, [], 1⟩, [0, 1]⟩], e.vector = [(1 : ℚ), 0] →
          ∃ hd, res.head? = some hd ∧ hd.score = 1 ∧ hd.chunk.vector = [(1 : ℚ), 0])) :=
  ⟨⟨by rfl, by simp [Pipeline.dot], by decide⟩,
    search_cosine_spec
      [⟨⟨"a", "d", "t", 0, 1, [], 0⟩, [1, 0]⟩, ⟨⟨"b", "d", "t", 1, 2, [], 1⟩, [0, 1]⟩]
      ⟨.cosine, 2,
        [⟨⟨"a", "d", "t", 0, 1, [], 0⟩, [1, 0]⟩, ⟨⟨"b", "d", "t", 1, 2, [], 1⟩, [0, 1]⟩]⟩
      [(1 : ℚ), 0] 2 (by rfl) (by simp [Pipeline.dot]) (by decide)
      (by simp [Pipeline.dot]) (by decide)⟩

lemma groupsOf_flatten (b : Nat) (hb : 0 < b) :
    ∀ (fuel : Nat) (xs : List String), xs.length ≤ fuel →
      (Pipeline.groupsOf b fuel xs).flatten = xs := by
  intro fuel
  induction fuel with
  | zero =>
    intro xs h
    have : xs = [] := List.length_eq_zero.mp (by omega)
    subst this
    rfl
  | succ f ih =>
    intro xs h
    cases xs with
    | nil => rfl
    | cons x t =>
      show ((x :: t).take b :: Pipeline.groupsOf b f ((x :: t).drop b)).flatten = x :: t
      rw [List.flatten_cons]
      rw [ih ((x :: t).drop b) (by rw [List.length_drop]; simp only [List.length_cons] at h ⊢; omega)]
      exact List.take_append_drop b (x :: t)

/-- C7: `embed` returns one vector per input text, in order, each equal to
the model's output for that text; in particular embedding a text inside
any batch (for any positive internal batch size) agrees with embedding it
alone. -/
theorem embed_batch_invariance (model : String → List ℚ) (b : Nat)
    (texts : List String) (hb : 0 < b) :
    ∃ vs, Pipeline.embed model b texts = .ok vs ∧
      vs = texts.map model ∧ vs.length = texts.length ∧
      ∀ t : String, Pipeline.embed model b [t] = .ok [model t] := by
  have hmain : ∀ ts : List String, Pipeline.embed model b ts = .ok (ts.map model) := by
    intro ts
    unfold Pipeline.embed
    rw [if_neg (by omega)]
    rw [← List.map_flatten, groupsOf_flatten b hb ts.length ts (Nat.le_refl _)]
  exact ⟨texts.map model, hmain texts, rfl, List.length_map _ _,
    fun t => by rw [hmain [t]]; rfl⟩

/-- Witness for C7 at a concrete model, batch size 2 and three texts. -/
theorem embed_batch_invariance_witness :
    0 < 2 ∧
      (∃ vs, Pipeline.embed (fun s => [(s.length : ℚ)]) 2 ["ab", "c", "def"] = .ok vs ∧
        vs = (["ab", "c", "def"] : List String).map (fun s => [(s.length : ℚ)]) ∧
        vs.length = (["ab", "c", "def"] : List String).length ∧
        ∀ t : String,
          Pipeline.embed (fun s => [(s.length : ℚ)]) 2 [t] = .ok [[(t.length : ℚ)]]) :=
  ⟨by decide, embed_batch_invariance (fun s => [(s.length : ℚ)]) 2 ["ab", "c", "def"]
    (by decide)⟩

/-- C8: a POST to the chat route whose body has no `message` (or an empty
one) is answered with HTTP 400 and error "Message is required", and no
request is forwarded to the backend. -/
theorem chat_requires_message (backend : Web.BackendCall → Option Web.BackendData)
    (body : Web.ChatBody) (h : body.message = none ∨ body.message = some "") :
    Web.chatPOST backend body = (.badRequest "Message is required", []) ∧
      (Web.chatPOST backend body).1.status = 400 := by
  have heq : Web.chatPOST backend body = (.badRequest "Message is required", []) := by
    rcases h with h | h <;> simp [Web.chatPOST, h]
  exact ⟨heq, by rw [heq]; rfl⟩

/-- Witness for C8: an empty-message body yields the 400 response and no
backend call. -/
theorem chat_requires_message_witness :
    ((Web.ChatBody.mk (some "") none).message = none ∨
        (Web.ChatBody.mk (some "") none).message = some "") ∧
      Web.chatPOST (fun _ => none) ⟨some "", none⟩
          = (.badRequest "Message is required", []) ∧
        (Web.chatPOST (fun _ => none) ⟨some "", none⟩).1.status = 400 :=
  ⟨by decide, chat_requires_message (fun _ => none) ⟨some "", none⟩ (by decide)⟩

lemma voice_name_mem (s : String) (c : Web.VoiceConfig)
    (h : Web.VOICE_OPTIONS s = some c) :
    c.name ∈ ["Adam", "Bella", "Cultural Voice", "Rachel", "Domi", "Arnold", "Josh"] := by
  unfold Web.VOICE_OPTIONS at h
  split at h <;> simp_all [Web.primaryVoice] <;> subst h <;> decide

/-- C9: a TTS POST with non-empty text and a configured API key always
succeeds regardless of `voice_type`: the voice used is
`VOICE_OPTIONS[voice_type]` for the seven defined keys and the primary
voice otherwise, so the response's `voice` is always a defined voice name. -/
theorem tts_voice_fallback (apiKey : String) (gen : String → String → List Nat)
    (body : Web.TtsBody) (t : String) (ht : body.text = some t) (ht' : t ≠ "")
    (hkey : apiKey ≠ "") :
    ∃ r, Web.ttsPOST apiKey gen body = .ok r ∧
      r.voice ∈ ["Adam", "Bella", "Cultural Voice", "Rachel", "Domi", "Arnold", "Josh"] ∧
      (∀ c, Web.VOICE_OPTIONS (body.voice_type.getD "primary") = some c →
        r.voice = c.name) ∧
      (Web.VOICE_OPTIONS (body.voice_type.getD "primary") = none →
        r.voice = "Adam") := by
  have hpost : Web.ttsPOST apiKey gen body =
      .ok ⟨gen ((Web.VOICE_OPTIONS (body.voice_type.getD "primary")).getD
            Web.primaryVoice).voice_id t,
          ((Web.VOICE_OPTIONS (body.voice_type.getD "primary")).getD
            Web.primaryVoice).name,
          "eleven_multilingual_v2"⟩ := by
    unfold Web.ttsPOST
    rw [ht]
    simp only [if_neg ht', if_neg hkey]
  refine ⟨_, hpost, ?_, ?_, ?_⟩
  · cases hvo : Web.VOICE_OPTIONS (body.voice_type.getD "primary") with
    | none => simp [hvo, Web.primaryVoice]
    | some c =>
      simp only [hvo, Option.getD_some]
      exact voice_name_mem _ c hvo
  · intro c hc
    simp [hc]
  · intro hc
    simp [hc, Web.primaryVoice]

/-- Witness for C9 with an unknown `voice_type`, falling back to the
primary voice. -/
theorem tts_voice_fallback_witness :
    ((Web.TtsBody.mk (some "hello") (some "robot")).text = some "hello" ∧
        "hello" ≠ "" ∧ "key" ≠ "") ∧
      (∃ r, Web.ttsPOST "key" (fun _ _ => []) ⟨some "hello", some "robot"⟩ = .ok r ∧
        r.voice ∈ ["Adam", "Bella", "Cultural Voice", "Rachel", "Domi", "Arnold", "Josh"] ∧
        (∀ c, Web.VOICE_OPTIONS ((Web.TtsBody.mk (some "hello")
            (some "robot")).voice_type.getD "primary") = some c → r.voice = c.name) ∧
        (Web.VOICE_OPTIONS ((Web.TtsBody.mk (some "hello")
            (some "robot")).voice_type.getD "primary") = none → r.voice = "Adam")) :=
  ⟨⟨by decide, by decide, by decide⟩,
    tts_voice_fallback "key" (fun _ _ => []) ⟨some "hello", some "robot"⟩ "hello"
      (by decide) (by decide) (by decide)⟩

/-- C10: the `VoiceAssistant` message list is never empty and its first
element is always the assistant welcome message, across any sequence of
interactions: `handleUserMessage` only appends (and appends nothing when
the content trims to empty) and `clearMessages` resets to exactly the
welcome message. -/
theorem voice_assistant_welcome_invariant (t0 : Nat) (ops : List Web.AssistantOp) :
    (∃ m, (Web.runOps t0 ops).head? = some m ∧
        m.id = "1" ∧ m.content = Web.welcomeText ∧ m.role = .assistant) ∧
      Web.runOps t0 ops ≠ [] ∧
      (∀ (c : String) (now : Nat) (rep : Option String) (s : List Web.Message),
        (c.trim = "" → Web.handleUserMessage c now rep s = s) ∧
        ∃ tail, Web.handleUserMessage c now rep s = s ++ tail) ∧
      ∀ now, Web.clearMessages now = [Web.welcome now] := by
  have key : ∀ (ops' : List Web.AssistantOp) (s : List Web.Message),
      (∃ m, s.head? = some m ∧
        m.id = "1" ∧ m.content = Web.welcomeText ∧ m.role = .assistant) →
      ∃ m, (ops'.foldl (fun s o => Web.applyOp o s) s).head? = some m ∧
        m.id = "1" ∧ m.content = Web.welcomeText ∧ m.role = .assistant := by
    intro ops'
    induction ops' with
    | nil => intro s h; exact h
    | cons op rest ih =>
      intro s h
      rw [List.foldl_cons]
      apply ih
      cases op with
      | clear now => exact ⟨Web.welcome now, rfl, rfl, rfl, rfl⟩
      | userMessage c now rep =>
        show ∃ m, (Web.handleUserMessage c now rep s).head? = some m ∧ _
        unfold Web.handleUserMessage
        split
        · exact h
        · obtain ⟨m, hm, h1, h2, h3⟩ := h
          refine ⟨m, ?_, h1, h2, h3⟩
          cases s with
          | nil => simp at hm
          | cons x tl => simpa using hm
  have hmain := key ops (Web.initialMessages t0) ⟨Web.welcome t0, rfl, rfl, rfl, rfl⟩
  refine ⟨hmain, ?_, ?_, fun now => rfl⟩
  · intro hemp
    obtain ⟨m, hm, _⟩ := hmain
    rw [show Web.runOps t0 ops = ops.foldl (fun s o => Web.applyOp o s)
      (Web.initialMessages t0) from rfl] at hemp
    rw [hemp] at hm
    simp at hm
  · intro c now rep s
    constructor
    · intro hc
      unfold Web.handleUserMessage
      rw [if_pos hc]
    · unfold Web.handleUserMessage
      split
      · exact ⟨[], (List.append_nil s).symm⟩
      · exact ⟨_, rfl⟩

end Theorems
